import Mathlib

/-!
Verification of the SampleFlow streaming-statistics library and the
mcmc-laplace population-MCMC driver against their natural-language
specification.  Each definition below is a shallow embedding of a function
from the C++ sources:

* `SampleFlow.Consumers.MeanValue`  from include/sampleflow/consumers/mean_value.h
* `SampleFlow.Filters.TakeNEveryM`  from include/sampleflow/filters/take_n_every_m.h
* `SampleFlow.ThreadPool`           from include/sampleflow/thread_pool.h
* `SampleFlow.random`               from include/sampleflow/random.h
* the log-posterior and crossover lambdas from src/mcmc-laplace.cc

Machine `double` arithmetic is modelled by exact rationals, and the C++
unsigned counters by `Nat` (no counter in these sources can overflow in any
execution considered here).
-/

namespace SampleFlow

namespace Consumers

/-- State of `Consumers::MeanValue<InputType>`: the two member variables
`current_mean` and `n_samples` (the mutex only serializes access and has no
sequential meaning). -/
structure MeanValue (α : Type) where
  current_mean : α
  n_samples : ℕ
deriving DecidableEq, Repr

/-- The `MeanValue` constructor: `n_samples (0)`, and `current_mean` holds a
default-constructed `InputType`. -/
def MeanValue.init (α : Type) [Inhabited α] : MeanValue α :=
  { current_mean := default, n_samples := 0 }

/-- `MeanValue::consume`, with `InputType = ℚ` standing for the numeric
sample type: if `n_samples == 0` store the sample as the mean, otherwise
increment `n_samples` and perform
`update = sample; update -= current_mean; update /= n_samples;
current_mean += update`. -/
def MeanValue.consume (st : MeanValue ℚ) (sample : ℚ) : MeanValue ℚ :=
  if st.n_samples = 0 then
    { current_mean := sample, n_samples := 1 }
  else
    let n := st.n_samples + 1
    let update := (sample - st.current_mean) / (n : ℚ)
    { current_mean := st.current_mean + update, n_samples := n }

/-- `MeanValue::get`: return `current_mean` (a const member function: it
only reads the state). -/
def MeanValue.get (st : MeanValue α) : α := st.current_mean

/-- After consuming a list of samples starting from a state that has already
seen `n > 0` samples with mean `m`, the state holds the combined mean
`(n*m + sum) / (n + length)` and the count `n + length`. -/
theorem MeanValue.foldl_consume (xs : List ℚ) :
    ∀ (m : ℚ) (n : ℕ), 0 < n →
      List.foldl MeanValue.consume ⟨m, n⟩ xs =
        ⟨((n : ℚ) * m + xs.sum) / ((n : ℚ) + xs.length), n + xs.length⟩ := by
  induction xs with
  | nil =>
    intro m n hn
    simp only [List.foldl_nil, List.sum_nil, List.length_nil, add_zero,
      Nat.cast_zero]
    have hn0 : (n : ℚ) ≠ 0 := Nat.cast_ne_zero.mpr hn.ne'
    congr 1
    field_simp
  | cons x xs ih =>
    intro m n hn
    have hstep : MeanValue.consume ⟨m, n⟩ x =
        ⟨m + (x - m) / ((n : ℚ) + 1), n + 1⟩ := by
      simp only [MeanValue.consume]
      rw [if_neg hn.ne']
      simp [Nat.cast_add]
    rw [List.foldl_cons, hstep, ih _ (n + 1) (Nat.succ_pos n)]
    have h1 : ((n : ℚ) + 1) ≠ 0 := by positivity
    have h2 : ((n : ℚ) + 1 + (xs.length : ℚ)) ≠ 0 := by positivity
    simp only [List.sum_cons, List.length_cons, Nat.cast_add, Nat.cast_one]
    congr 1
    · field_simp
      ring
    · omega

/-- Claim C1: for every sequence of `N ≥ 1` samples fed to `MeanValue::consume`,
a subsequent `MeanValue::get` returns the batch mean `(sum of samples) / N`;
the incremental update `mean_k = mean_{k-1} + (x_k - mean_{k-1}) / k` with
`mean_1 = x_1` computes the batch mean exactly over the rationals, and since
the statement holds for every list it holds for every ordering of the
samples. -/
theorem mean_value_computes_batch_mean (xs : List ℚ) (h : 1 ≤ xs.length) :
    (List.foldl MeanValue.consume (MeanValue.init ℚ) xs).get
      = xs.sum / (xs.length : ℚ) := by
  match xs, h with
  | x :: xs, _ =>
    have hfirst : MeanValue.consume (MeanValue.init ℚ) x = ⟨x, 1⟩ := by
      simp [MeanValue.consume, MeanValue.init]
    rw [List.foldl_cons, hfirst,
      MeanValue.foldl_consume xs x 1 Nat.one_pos]
    simp only [MeanValue.get, List.sum_cons, List.length_cons, Nat.cast_add,
      Nat.cast_one, Nat.cast_ofNat]
    congr 1
    · ring
    · ring

/-- Concrete instance of C1: consuming the samples 1, 2, 6 yields the batch
mean 3. -/
theorem mean_value_computes_batch_mean_witness :
    1 ≤ ([1, 2, 6] : List ℚ).length ∧
      (List.foldl MeanValue.consume (MeanValue.init ℚ) [1, 2, 6]).get
        = ([1, 2, 6] : List ℚ).sum / (([1, 2, 6] : List ℚ).length : ℚ) :=
  ⟨by decide, mean_value_computes_batch_mean [1, 2, 6] (by decide)⟩

/-- Claim C10: on a freshly constructed `MeanValue` (no `consume` call yet) the
constructor has set `n_samples` to 0, and `get()` returns the
default-constructed value of `InputType`; `get` is a total read-only
function of the state, so it cannot fail and does not modify the state. -/
theorem mean_value_get_before_any_sample (α : Type) [Inhabited α] :
    (MeanValue.init α).n_samples = 0 ∧
      (MeanValue.init α).get = (default : α) :=
  ⟨rfl, rfl⟩

/-- Concrete instance of C10 at `InputType = ℚ`, whose default value is 0. -/
theorem mean_value_get_before_any_sample_witness :
    (MeanValue.init ℚ).n_samples = 0 ∧ (MeanValue.init ℚ).get = (0 : ℚ) :=
  mean_value_get_before_any_sample ℚ

end Consumers

namespace Filters

/-- State of `Filters::TakeNEveryM`: the counter of samples seen so far and
the two constructor parameters (`types::sample_index` is an unsigned
integer type, modelled by `Nat`). -/
structure TakeNEveryM where
  counter : ℕ
  every_mth : ℕ
  n_samples : ℕ
deriving DecidableEq, Repr

/-- The `TakeNEveryM` constructor: `counter (0)`, storing the two
parameters. -/
def TakeNEveryM.init (every_mth n : ℕ) : TakeNEveryM :=
  { counter := 0, every_mth := every_mth, n_samples := n }

/-- `TakeNEveryM::filter`: under the mutex, read the counter into
`my_counter` and increment the member; then forward the (sample, aux_data)
pair unchanged when `my_counter % every_mth < n_samples`, and return the
empty optional otherwise.  The new state is returned alongside the
result. -/
def TakeNEveryM.filter (st : TakeNEveryM) (sample : α) (aux_data : β) :
    TakeNEveryM × Option (α × β) :=
  let my_counter := st.counter
  let st' : TakeNEveryM := { st with counter := st.counter + 1 }
  if my_counter % st.every_mth < st.n_samples then
    (st', some (sample, aux_data))
  else
    (st', none)

/-- Feeding a list of samples through the filter, keeping only the final
state. -/
def TakeNEveryM.consumeAll (st : TakeNEveryM) (xs : List (α × β)) :
    TakeNEveryM :=
  xs.foldl (fun s p => (TakeNEveryM.filter s p.1 p.2).1) st

/-- The indices (inputs) the filter forwards out of a given input list,
feeding the inputs in order with trivial auxiliary data. -/
def TakeNEveryM.forwardedInputs : TakeNEveryM → List ℕ → List ℕ
  | _, [] => []
  | st, x :: rest =>
    let r := TakeNEveryM.filter st x ()
    match r.2 with
    | some _ => x :: TakeNEveryM.forwardedInputs r.1 rest
    | none => TakeNEveryM.forwardedInputs r.1 rest

/-- Each `filter` call increments the counter by exactly one and leaves the
constructor parameters unchanged, so after `k` calls on a fresh filter the
counter equals `k`. -/
theorem TakeNEveryM.consumeAll_state (xs : List (α × β)) :
    ∀ st : TakeNEveryM,
      TakeNEveryM.consumeAll st xs =
        { st with counter := st.counter + xs.length } := by
  induction xs with
  | nil => intro st; simp [TakeNEveryM.consumeAll]
  | cons p xs ih =>
    intro st
    have hstep : (TakeNEveryM.filter st p.1 p.2).1 =
        { st with counter := st.counter + 1 } := by
      simp only [TakeNEveryM.filter]
      by_cases h : st.counter % st.every_mth < st.n_samples <;> simp [h]
    simp only [TakeNEveryM.consumeAll, List.foldl_cons] at *
    rw [hstep, ih]
    simp only [List.length_cons]
    congr 1
    omega

/-- Claim C2: the `k`-th call (counting from 0) to a fresh
`TakeNEveryM(every_mth, n_samples)` filter forwards the sample and its
auxiliary data unchanged exactly when `k % every_mth < n_samples` and
otherwise drops it; in particular with `every_mth = 5`, `n_samples = 2` the
inputs 0..14 forwarded are exactly 0, 1, 5, 6, 10, 11. -/
theorem take_n_every_m_forwards_kth_sample :
    (∀ (α β : Type) (m n : ℕ) (prev : List (α × β)) (s : α) (a : β),
      1 ≤ m →
        ((TakeNEveryM.consumeAll (TakeNEveryM.init m n) prev).filter s a).2
          = if prev.length % m < n then some (s, a) else none) ∧
    TakeNEveryM.forwardedInputs (TakeNEveryM.init 5 2) (List.range 15)
      = [0, 1, 5, 6, 10, 11] := by
  constructor
  · intro α β m n prev s a _
    rw [TakeNEveryM.consumeAll_state]
    simp only [TakeNEveryM.filter, TakeNEveryM.init]
    by_cases h : (0 + prev.length) % m < n
    · rw [if_pos (by simpa using h)]
      simp only [Nat.zero_add] at h
      rw [if_pos h]
    · rw [if_neg (by simpa using h)]
      simp only [Nat.zero_add] at h
      rw [if_neg h]
  · decide

/-- Concrete instance of C2: the 7th call (index 7, with `every_mth = 5`,
`n_samples = 2`) drops its sample since `7 % 5 = 2 ≥ 2`. -/
theorem take_n_every_m_forwards_kth_sample_witness :
    ((TakeNEveryM.consumeAll (TakeNEveryM.init 5 2)
        (List.range 7 |>.map (fun i => (i, ())))).filter 7 ()).2
      = (if (List.range 7 |>.map (fun i => (i, ()))).length % 5 < 2
          then some ((7 : ℕ), ())
          else none) :=
  take_n_every_m_forwards_kth_sample.1 ℕ Unit 5 2 _ 7 () (by decide)

end Filters

namespace ThreadPool

/-- The `concurrency` value computed at the top of the `ThreadPool`
constructor: `min(atoi(OMP_NUM_THREADS), hardware_concurrency)` when the
environment variable is set, `hardware_concurrency` otherwise. -/
def computed_concurrency (omp_num_threads : Option ℕ)
    (hardware_concurrency : ℕ) : ℕ :=
  match omp_num_threads with
  | some e => min e hardware_concurrency
  | none => hardware_concurrency

/-- The number of worker threads the `ThreadPool` constructor starts:
after computing `concurrency`, it executes
`if (concurrency != 0) --concurrency;` (reserving one unit for the
submitting main thread) and then
`n_worker_threads = std::min(concurrency, max_threads)`. -/
def n_worker_threads_of (max_threads : ℕ) (omp_num_threads : Option ℕ)
    (hardware_concurrency : ℕ) : ℕ :=
  let concurrency := computed_concurrency omp_num_threads hardware_concurrency
  let concurrency := if concurrency ≠ 0 then concurrency - 1 else concurrency
  min concurrency max_threads

/-- Claim C4: the worker count started by the constructor equals
`min(max_threads, C - 1 if C != 0 else 0)` where `C = min(E, H)` when
`OMP_NUM_THREADS` is set to `E` and `C = H` otherwise; in particular
`max_threads = 64, H = 192, E = 65` gives 64 workers and
`max_threads = 64, H = 8, E = 4` gives 3 workers. -/
theorem n_worker_threads_matches_formula :
    (∀ (max_threads hardware_concurrency : ℕ) (omp : Option ℕ),
        n_worker_threads_of max_threads omp hardware_concurrency
          = min max_threads
              (if computed_concurrency omp hardware_concurrency ≠ 0
               then computed_concurrency omp hardware_concurrency - 1
               else 0)) ∧
    n_worker_threads_of 64 (some 65) 192 = 64 ∧
    n_worker_threads_of 64 (some 4) 8 = 3 := by
  refine ⟨fun max_threads hw omp => ?_, by decide, by decide⟩
  simp only [n_worker_threads_of]
  by_cases hc : computed_concurrency omp hw = 0 <;>
    simp [hc, Nat.min_comm]

/-- The sequential state of a `ThreadPool` object, together with
bookkeeping of the tasks submitted, currently running, and finished.  A
task is identified by a natural-number label.  `task_queue` holds the
pairs `(id, task)` that `enqueue_task` builds, where the id comes from the
function-local `static int n_tasks` counter (modelled as part of the
state, initialized to 0 the first time `enqueue_task` runs).  `running`
and `executed` record which tasks workers have popped but not finished,
and which have finished; `enqueued` records every task ever submitted. -/
structure PoolState where
  n_worker_threads : ℕ
  stop_signal : Bool
  task_queue : List (ℤ × ℕ)
  currently_executing_tasks : ℕ
  n_tasks : ℤ
  running : List ℕ
  executed : List ℕ
  enqueued : List ℕ
deriving DecidableEq, Repr

/-- The pool right after the constructor ran and started `w` worker
threads: empty queue, no executing task, stop signal unset, and the
static task counter at its initializer 0. -/
def init (w : ℕ) : PoolState :=
  { n_worker_threads := w
    stop_signal := false
    task_queue := []
    currently_executing_tasks := 0
    n_tasks := 0
    running := []
    executed := []
    enqueued := [] }

/-- `ThreadPool::enqueue_task`: if `n_worker_threads >= 1`, append the
pair `(n_tasks, task)` to the queue under the queue mutex (the static
counter `n_tasks` is read but never modified by the source); otherwise
execute the task outright on the submitting thread. -/
def enqueue_task (s : PoolState) (t : ℕ) : PoolState :=
  if 1 ≤ s.n_worker_threads then
    { s with task_queue := s.task_queue ++ [(s.n_tasks, t)]
             enqueued := s.enqueued ++ [t] }
  else
    { s with executed := s.executed ++ [t]
             enqueued := s.enqueued ++ [t] }

/-- The exit condition of `ThreadPool::join_all`: when
`n_worker_threads >= 1` the caller loops (yielding) until, under the
queue mutex, `task_queue.empty() && currently_executing_tasks == 0`;
when there are no workers the body is skipped and the call returns at
once.  This predicate states that `join_all` may return in state `s`. -/
def join_all_returns (s : PoolState) : Bool :=
  if 1 ≤ s.n_worker_threads then
    s.task_queue.isEmpty && s.currently_executing_tasks == 0
  else
    true

/-- One atomic transition of the pool, as delimited by the queue mutex in
the source: a submitter enqueues a task (or runs it inline when there are
no workers); a worker pops the oldest task and increments
`currently_executing_tasks` in the same critical section before running
it; a worker finishes a task it was running and decrements
`currently_executing_tasks`. -/
inductive Step : PoolState → PoolState → Prop
  | enqueue (s : PoolState) (t : ℕ) : Step s (enqueue_task s t)
  | start (s : PoolState) (id : ℤ) (t : ℕ) (rest : List (ℤ × ℕ))
      (hstop : s.stop_signal = false)
      (hq : s.task_queue = (id, t) :: rest) :
      Step s { s with task_queue := rest
                      currently_executing_tasks :=
                        s.currently_executing_tasks + 1
                      running := s.running ++ [t] }
  | finish (s : PoolState) (t : ℕ) (pre post : List ℕ)
      (hr : s.running = pre ++ t :: post) :
      Step s { s with running := pre ++ post
                      currently_executing_tasks :=
                        s.currently_executing_tasks - 1
                      executed := s.executed ++ [t] }

/-- States reachable from a freshly constructed pool with `w` workers by
any interleaving of submitter and worker transitions. -/
def Reachable (w : ℕ) (s : PoolState) : Prop :=
  Relation.ReflTransGen Step (init w) s

/-- The pool invariant: the active-task counter equals the number of
tasks currently being executed, and every submitted task is accounted
for exactly once as queued, running, or executed. -/
abbrev Inv (s : PoolState) : Prop :=
  s.currently_executing_tasks = s.running.length ∧
  ∀ t : ℕ, s.enqueued.count t
      = (s.task_queue.map Prod.snd).count t
        + s.running.count t + s.executed.count t

theorem inv_init (w : ℕ) : Inv (init w) := by
  exact ⟨rfl, fun t => rfl⟩

theorem inv_step {s s' : PoolState} (h : Step s s') (hs : Inv s) :
    Inv s' := by
  obtain ⟨hcount, hacct⟩ := hs
  cases h with
  | enqueue t =>
    unfold enqueue_task
    by_cases hw : 1 ≤ s.n_worker_threads
    · rw [if_pos hw]
      refine ⟨hcount, fun u => ?_⟩
      have h0 := hacct u
      show (s.enqueued ++ [t]).count u
          = ((s.task_queue ++ [(s.n_tasks, t)]).map Prod.snd).count u
            + s.running.count u + s.executed.count u
      simp only [List.map_append, List.count_append, List.map_cons,
        List.map_nil]
      rcases eq_or_ne u t with hu | hu
      · subst hu; simp; omega
      · simp [List.count_cons, hu]; omega
    · rw [if_neg hw]
      refine ⟨hcount, fun u => ?_⟩
      have h0 := hacct u
      show (s.enqueued ++ [t]).count u
          = (s.task_queue.map Prod.snd).count u
            + s.running.count u + (s.executed ++ [t]).count u
      simp only [List.count_append]
      omega
  | start id t rest hstop hq =>
    constructor
    · show s.currently_executing_tasks + 1 = (s.running ++ [t]).length
      simp [hcount]
    · intro u
      have h0 := hacct u
      rw [hq] at h0
      show s.enqueued.count u
          = (rest.map Prod.snd).count u + (s.running ++ [t]).count u
            + s.executed.count u
      simp only [List.map_cons, List.count_append] at h0 ⊢
      rcases eq_or_ne u t with hu | hu
      · subst hu; simp [List.count_cons] at h0 ⊢; omega
      · simp [List.count_cons, hu] at h0 ⊢; omega
  | finish t pre post hr =>
    constructor
    · show s.currently_executing_tasks - 1 = (pre ++ post).length
      have hlen : s.running.length = pre.length + (post.length + 1) := by
        rw [hr]; simp
      simp only [List.length_append]
      omega
    · intro u
      have h0 := hacct u
      rw [hr] at h0
      show s.enqueued.count u
          = (s.task_queue.map Prod.snd).count u + (pre ++ post).count u
            + (s.executed ++ [t]).count u
      simp only [List.count_append] at h0 ⊢
      rcases eq_or_ne u t with hu | hu
      · subst hu; simp [List.count_cons] at h0 ⊢; omega
      · simp [List.count_cons, hu] at h0 ⊢; omega

theorem inv_of_reachable {w : ℕ} {s : PoolState} (h : Reachable w s) :
    Inv s := by
  induction h with
  | refl => exact inv_init w
  | tail _ hstep ih => exact inv_step hstep ih

/-- Claim C3: in every reachable pool state the active-task counter
equals the number of tasks a worker has started but not finished (it is
incremented before the task runs and decremented after), and whenever
`join_all` returns on a pool with at least one worker — i.e. when the
queue is empty and the counter is zero — every task ever submitted with
`enqueue_task` (including tasks enqueued by tasks that ran during the
call) has completed execution: the submitted and the executed tasks are
a permutation of one another. -/
theorem join_all_implies_all_tasks_executed (w : ℕ) (s : PoolState)
    (hreach : Reachable w s)
    (hw : 1 ≤ s.n_worker_threads)
    (hjoin : join_all_returns s = true) :
    s.currently_executing_tasks = s.running.length ∧
      s.enqueued.Perm s.executed := by
  obtain ⟨hcount, hacct⟩ := inv_of_reachable hreach
  refine ⟨hcount, ?_⟩
  unfold join_all_returns at hjoin
  rw [if_pos hw] at hjoin
  simp only [Bool.and_eq_true, List.isEmpty_iff, beq_iff_eq] at hjoin
  obtain ⟨hq, hc⟩ := hjoin
  have hrun : s.running = [] := by
    have := hcount
    rw [hc] at this
    exact (List.eq_nil_of_length_eq_zero this.symm)
  rw [List.perm_iff_count]
  intro u
  have := hacct u
  rw [hq, hrun] at this
  simpa using this

/-- Intermediate states of a concrete execution of a one-worker pool:
task 10 is enqueued and started; while it runs it enqueues child task 11;
task 10 finishes, then task 11 is started and finishes. -/
def demo_s1 : PoolState := enqueue_task (init 1) 10

def demo_s2 : PoolState :=
  { demo_s1 with task_queue := []
                 currently_executing_tasks :=
                   demo_s1.currently_executing_tasks + 1
                 running := demo_s1.running ++ [10] }

def demo_s3 : PoolState := enqueue_task demo_s2 11

def demo_s4 : PoolState :=
  { demo_s3 with running := ([] : List ℕ) ++ []
                 currently_executing_tasks :=
                   demo_s3.currently_executing_tasks - 1
                 executed := demo_s3.executed ++ [10] }

def demo_s5 : PoolState :=
  { demo_s4 with task_queue := []
                 currently_executing_tasks :=
                   demo_s4.currently_executing_tasks + 1
                 running := demo_s4.running ++ [11] }

def demo_final : PoolState :=
  { demo_s5 with running := ([] : List ℕ) ++ []
                 currently_executing_tasks :=
                   demo_s5.currently_executing_tasks - 1
                 executed := demo_s5.executed ++ [11] }

theorem demo_reachable : Reachable 1 demo_final := by
  have h1 : Step (init 1) demo_s1 := Step.enqueue _ 10
  have h2 : Step demo_s1 demo_s2 := Step.start _ 0 10 [] rfl rfl
  have h3 : Step demo_s2 demo_s3 := Step.enqueue _ 11
  have h4 : Step demo_s3 demo_s4 := Step.finish _ 10 [] [] rfl
  have h5 : Step demo_s4 demo_s5 := Step.start _ 0 11 [] rfl rfl
  have h6 : Step demo_s5 demo_final := Step.finish _ 11 [] [] rfl
  exact Relation.ReflTransGen.tail (Relation.ReflTransGen.tail
    (Relation.ReflTransGen.tail (Relation.ReflTransGen.tail
      (Relation.ReflTransGen.tail (Relation.ReflTransGen.single h1) h2)
        h3) h4) h5) h6

/-- Concrete instance of C3: on the six-step execution above (which
includes a child task enqueued by a running task) the state in which
`join_all` returns has both submitted tasks executed. -/
theorem join_all_implies_all_tasks_executed_witness :
    Reachable 1 demo_final ∧
    1 ≤ demo_final.n_worker_threads ∧
    join_all_returns demo_final = true ∧
    (demo_final.currently_executing_tasks = demo_final.running.length ∧
      demo_final.enqueued.Perm demo_final.executed) :=
  ⟨demo_reachable, by decide, by decide,
    join_all_implies_all_tasks_executed 1 demo_final demo_reachable
      (by decide) (by decide)⟩

/-- Claim C5: on a pool whose effective worker count is zero, every
`enqueue_task` call executes the submitted task synchronously, inline,
on the submitting thread before returning: after any sequence of
submissions the executed tasks have grown by exactly the submitted tasks
in submission order, nothing was placed in the queue, and `join_all`
returns immediately, so no submitted task is ever lost. -/
theorem zero_workers_execute_inline (s : PoolState) (ts : List ℕ)
    (h : s.n_worker_threads = 0) :
    (ts.foldl enqueue_task s).executed = s.executed ++ ts ∧
    (ts.foldl enqueue_task s).task_queue = s.task_queue ∧
    join_all_returns (ts.foldl enqueue_task s) = true := by
  induction ts generalizing s with
  | nil =>
    refine ⟨by simp, rfl, ?_⟩
    simp only [List.foldl_nil]
    unfold join_all_returns
    rw [if_neg (by omega)]
  | cons t ts ih =>
    have hw : ¬ 1 ≤ s.n_worker_threads := by omega
    have hstep : enqueue_task s t =
        { s with executed := s.executed ++ [t]
                 enqueued := s.enqueued ++ [t] } := by
      unfold enqueue_task; rw [if_neg hw]
    rw [List.foldl_cons, hstep]
    obtain ⟨h1, h2, h3⟩ :=
      ih { s with executed := s.executed ++ [t]
                  enqueued := s.enqueued ++ [t] } h
    refine ⟨?_, h2, h3⟩
    rw [h1]; simp

/-- Concrete instance of C5: submitting tasks 1, 2, 3 to a pool with no
workers executes all three inline and leaves the queue empty. -/
theorem zero_workers_execute_inline_witness :
    (init 0).n_worker_threads = 0 ∧
    ((([1, 2, 3] : List ℕ).foldl enqueue_task (init 0)).executed
        = (init 0).executed ++ [1, 2, 3] ∧
      (([1, 2, 3] : List ℕ).foldl enqueue_task (init 0)).task_queue
        = (init 0).task_queue ∧
      join_all_returns (([1, 2, 3] : List ℕ).foldl enqueue_task (init 0))
        = true) :=
  ⟨rfl, zero_workers_execute_inline (init 0) [1, 2, 3] rfl⟩

/-- Claim C9 (amended): every task placed in the queue by `enqueue_task`
is tagged with the value of the function-local static counter `n_tasks`,
but that counter is initialized to zero and never incremented by the
source, so in every reachable pool state the counter still holds zero
and every queued task's id equals 0: for two successive calls to
`enqueue_task` the id of the later task equals — rather than strictly
exceeds — the id of the earlier one. -/
theorem task_ids_never_increase (w : ℕ) (s : PoolState)
    (h : Reachable w s) :
    s.n_tasks = 0 ∧ ∀ p ∈ s.task_queue, p.1 = 0 := by
  induction h with
  | refl => exact ⟨rfl, by simp [init]⟩
  | @tail b c _ hstep ih =>
    obtain ⟨hn, hq⟩ := ih
    cases hstep with
    | enqueue t =>
      unfold enqueue_task
      by_cases hw : 1 ≤ b.n_worker_threads
      · rw [if_pos hw]
        refine ⟨hn, fun p hp => ?_⟩
        rcases List.mem_append.mp hp with hp | hp
        · exact hq p hp
        · simp only [List.mem_singleton] at hp
          rw [hp, hn]
      · rw [if_neg hw]
        exact ⟨hn, hq⟩
    | start id t rest hstop hqq =>
      refine ⟨hn, fun p hp => ?_⟩
      exact hq p (by rw [hqq]; exact List.mem_cons_of_mem _ hp)
    | finish t pre post hr =>
      exact ⟨hn, hq⟩

/-- Concrete instance of the amended C9: after one enqueue on a fresh
one-worker pool the static counter and the queued id are both 0. -/
theorem task_ids_never_increase_witness :
    Reachable 1 (enqueue_task (init 1) 5) ∧
    ((enqueue_task (init 1) 5).n_tasks = 0 ∧
      ∀ p ∈ (enqueue_task (init 1) 5).task_queue, p.1 = 0) :=
  ⟨Relation.ReflTransGen.single (Step.enqueue (init 1) 5),
    task_ids_never_increase 1 _
      (Relation.ReflTransGen.single (Step.enqueue (init 1) 5))⟩

/-- Counterexample to Claim C9 as stated: enqueueing two tasks in
succession on a fresh one-worker pool tags both with id 0 (the static
counter is never incremented), so the id of the later-enqueued task is
not strictly greater than the id of the earlier one. -/
theorem task_ids_not_strictly_increasing :
    ((enqueue_task (enqueue_task (init 1) 7) 8).task_queue.map Prod.fst
        = [0, 0]) ∧
    ¬ (((enqueue_task (enqueue_task (init 1) 7) 8).task_queue.map
          Prod.fst).getD 0 0
        < ((enqueue_task (enqueue_task (init 1) 7) 8).task_queue.map
            Prod.fst).getD 1 0) :=
  ⟨by decide, by decide⟩

end ThreadPool

namespace random

/-- The body of
`SampleFlow::random::uniform_real_distribution<RealType>::operator()`:
for parameters `a`, `b` and one generator draw (together with the
generator's fixed `min()` and `max()`), compute
`s = RealType(1.) * (draw - min) / (max - min)` and return
`s * (b - a) + a` — a pure function of the draw value, which makes the
produced sequence a deterministic function of the generator state. -/
def uniform_real_result (a b : ℚ) (rng_min rng_max : ℕ) (draw : ℕ) : ℚ :=
  let s : ℚ :=
    1 * ((draw : ℚ) - (rng_min : ℚ)) / ((rng_max : ℚ) - (rng_min : ℚ))
  s * (b - a) + a

/-- The body of
`SampleFlow::random::uniform_int_distribution<IntType>::operator()`:
`s = (draw - min) % (b - a)`, result `s + a`.  In every use of this
benchmark `draw ≥ min` and `b > a`, where the C++ truncated `%`
coincides with the mathematical modulus used here. -/
def uniform_int_result (a b : ℤ) (rng_min : ℕ) (draw : ℕ) : ℤ :=
  let s : ℤ := ((draw : ℤ) - (rng_min : ℤ)) % (b - a)
  s + a

end random

namespace DifferentialEvaluationMH

/-- Modelled from the spec: the population-MCMC sampler implementation
(`sampleflow/producers/differential_evaluation_mh.h`, included by
mcmc-laplace.cc) is not among the provided sources, so its run inputs
are taken from spec section 6: chain count, the externally supplied
log-posterior, crossover and exp functions, and the single seeded random
stream, modelled as a pure function from the number of draws consumed so
far to the next generator output together with the generator's fixed
`min()`/`max()` bounds (any deterministic generator such as the seeded
`std::mt19937` has this form). -/
structure DriverInputs where
  n_chains : ℕ
  stream : ℕ → ℕ
  rng_min : ℕ
  rng_max : ℕ
  log_posterior : List ℚ → WithBot ℚ
  crossover : List ℚ → List ℚ → List ℚ → List ℚ × ℚ
  exp : ℚ → ℚ

/-- Modelled from the spec: driver state between generations — each
chain's current sample with its current log-posterior score, plus the
number of random draws consumed so far (the generator state). -/
structure DriverState where
  chains : List (List ℚ × WithBot ℚ)
  rng_counter : ℕ

/-- Modelled from the spec: acceptance probability
`min(1, exp(score_candidate - score_current) * ratio)`, with an
infeasible candidate (score -infinity) never accepted and a candidate
always accepted against an infeasible current score. -/
def acceptance_probability (exp : ℚ → ℚ) (ratio : ℚ)
    (score_candidate score_current : WithBot ℚ) : ℚ :=
  match score_candidate, score_current with
  | none, _ => 0
  | some _, none => 1
  | some sc, some st => min 1 (exp (sc - st) * ratio)

/-- Modelled from the spec: advance chain `i` by one generation against
the generation-start population `snapshot`, consuming exactly three
draws from the stream in a fixed order — partner index a, partner index
b, acceptance threshold u — through the distribution classes of
random.h.  The skip rule `raw ≥ i → raw + 1` is the fixed deterministic
rule choosing a partner different from `i` that the spec requires the
implementation to fix. -/
def chain_advance (D : DriverInputs)
    (snapshot : List (List ℚ × WithBot ℚ)) (i : ℕ)
    (cur : List ℚ × WithBot ℚ) (ctr : ℕ) :
    (List ℚ × WithBot ℚ) × ℕ :=
  let draw_a := D.stream ctr
  let draw_b := D.stream (ctr + 1)
  let draw_u := D.stream (ctr + 2)
  let raw_a :=
    (random.uniform_int_result 0 (D.n_chains : ℤ) D.rng_min draw_a).toNat
  let a := if i ≤ raw_a then raw_a + 1 else raw_a
  let raw_b :=
    (random.uniform_int_result 0 (D.n_chains : ℤ) D.rng_min draw_b).toNat
  let b := if i ≤ raw_b then raw_b + 1 else raw_b
  let sample_a := (snapshot.getD a ([], none)).1
  let sample_b := (snapshot.getD b ([], none)).1
  let cr := D.crossover cur.1 sample_a sample_b
  let score_candidate := D.log_posterior cr.1
  let u := random.uniform_real_result 0 1 D.rng_min D.rng_max draw_u
  (if u < acceptance_probability D.exp cr.2 score_candidate cur.2
   then (cr.1, score_candidate)
   else cur, ctr + 3)

/-- Modelled from the spec: advance the listed chains in index order
(`i` is the index of the first listed chain), reading partners from the
fixed generation-start snapshot and threading the draw counter. -/
def advance_chains (D : DriverInputs)
    (snapshot : List (List ℚ × WithBot ℚ)) :
    List (List ℚ × WithBot ℚ) → ℕ → ℕ →
      List (List ℚ × WithBot ℚ) × ℕ
  | [], _, ctr => ([], ctr)
  | c :: rest, i, ctr =>
    let r := chain_advance D snapshot i c ctr
    let rr := advance_chains D snapshot rest (i + 1) r.2
    (r.1 :: rr.1, rr.2)

/-- Modelled from the spec: one lockstep generation — every chain is
advanced in index order against the generation-start snapshot, and each
chain emits whichever sample it ends the step holding. -/
def generation (D : DriverInputs) (st : DriverState) :
    DriverState × List (List ℚ) :=
  let r := advance_chains D st.chains st.chains 0 st.rng_counter
  (⟨r.1, r.2⟩, r.1.map Prod.fst)

/-- Modelled from the spec: the state at the start of a run — the
per-chain initial samples with their scores, and no draw consumed
yet. -/
def initial_state (D : DriverInputs) (initial_samples : List (List ℚ)) :
    DriverState :=
  { chains := initial_samples.map (fun x => (x, D.log_posterior x))
    rng_counter := 0 }

/-- Modelled from the spec: total generations =
ceil(total sample budget / chain count). -/
def total_generations (budget n_chains : ℕ) : ℕ :=
  (budget + n_chains - 1) / n_chains

/-- Modelled from the spec: the sequential-evaluation run judgment.
`SeqRun D g st (out, final)` holds when running `g` lockstep
generations from state `st` emits the sample stream `out` and ends in
state `final`. -/
inductive SeqRun (D : DriverInputs) :
    ℕ → DriverState → List (List ℚ) × DriverState → Prop
  | done (st : DriverState) : SeqRun D 0 st ([], st)
  | step (g : ℕ) (st : DriverState) (out : List (List ℚ))
      (stFinal : DriverState) :
      SeqRun D g (generation D st).1 (out, stFinal) →
      SeqRun D (g + 1) st ((generation D st).2 ++ out, stFinal)

theorem seqRun_unique {D : DriverInputs} {g : ℕ} {st : DriverState}
    {r1 r2 : List (List ℚ) × DriverState}
    (h1 : SeqRun D g st r1) (h2 : SeqRun D g st r2) : r1 = r2 := by
  induction h1 generalizing r2 with
  | done st => cases h2; rfl
  | step g st out stFinal h ih =>
    cases h2 with
    | step _ _ out2 stFinal2 h2' =>
      have heq := ih h2'
      rw [Prod.mk.injEq] at heq
      rw [heq.1, heq.2]

/-- Claim C8: with sequential evaluation, the emitted sample stream is a
deterministic function of the seed, the chain count and the sample
budget: any two runs over the same inputs — same seeded stream, same
chains, same budget, hence the same number of lockstep generations, with
every chain consuming the same three draws per generation in the same
fixed order through the pure distribution functions of random.h —
produce identical emitted streams (and identical final generator
states), so the streams truncated to the sample budget are identical as
well. -/
theorem sequential_run_deterministic (D : DriverInputs)
    (initial_samples : List (List ℚ)) (budget : ℕ)
    (r1 r2 : List (List ℚ) × DriverState)
    (h1 : SeqRun D (total_generations budget D.n_chains)
            (initial_state D initial_samples) r1)
    (h2 : SeqRun D (total_generations budget D.n_chains)
            (initial_state D initial_samples) r2) :
    r1 = r2 ∧ r1.1.take budget = r2.1.take budget := by
  have heq := seqRun_unique h1 h2
  exact ⟨heq, by rw [heq]⟩

/-- A concrete single-chain driver input used to instantiate the
determinism theorem. -/
def demo_driver : DriverInputs :=
  { n_chains := 1
    stream := fun _ => 0
    rng_min := 0
    rng_max := 1
    log_posterior := fun _ => some 0
    crossover := fun c _ _ => (c, 1)
    exp := fun _ => 1 }

/-- Concrete instance of C8: a one-chain, one-sample sequential run has
a derivable run judgment, and the theorem applied to two such
derivations yields equality of the emitted streams. -/
theorem sequential_run_deterministic_witness :
    SeqRun demo_driver (total_generations 1 demo_driver.n_chains)
        (initial_state demo_driver [[0]])
        ((generation demo_driver (initial_state demo_driver [[0]])).2 ++ [],
          (generation demo_driver (initial_state demo_driver [[0]])).1) ∧
    (((generation demo_driver (initial_state demo_driver [[0]])).2 ++ [],
        (generation demo_driver (initial_state demo_driver [[0]])).1)
      = ((generation demo_driver (initial_state demo_driver [[0]])).2 ++ [],
          (generation demo_driver (initial_state demo_driver [[0]])).1) ∧
      ((generation demo_driver (initial_state demo_driver [[0]])).2
          ++ []).take 1
        = ((generation demo_driver (initial_state demo_driver [[0]])).2
            ++ []).take 1) := by
  have hrun : SeqRun demo_driver 1 (initial_state demo_driver [[0]])
      ((generation demo_driver (initial_state demo_driver [[0]])).2 ++ [],
        (generation demo_driver (initial_state demo_driver [[0]])).1) :=
    SeqRun.step 0 (initial_state demo_driver [[0]]) []
      (generation demo_driver (initial_state demo_driver [[0]])).1
      (SeqRun.done _)
  exact ⟨hrun,
    sequential_run_deterministic demo_driver [[0]] 1 _ _ hrun hrun⟩

end DifferentialEvaluationMH

end SampleFlow

namespace MCMCLaplace

/-- The log-posterior lambda `main` passes to `sampler.sample` in
mcmc-laplace.cc: iterate over the components of the candidate `x` and
return -infinity (`⊥` in `WithBot ℚ`) as soon as some component `v`
satisfies `v <= 0` — before the forward PDE solve
(`laplace_problem.evaluate`) or the prior is touched; otherwise return
`log_likelihood(evaluate(x)) + log_prior(x)`.  The solver and the two
external densities are opaque parameters, with `μ` the type of the
solver's measurement output. -/
def log_posterior_lambda (μ : Type) (evaluate : List ℚ → μ)
    (log_likelihood : μ → ℚ) (log_prior : List ℚ → ℚ)
    (x : List ℚ) : WithBot ℚ :=
  if x.any (fun v => decide (v ≤ 0)) then ⊥
  else ↑(log_likelihood (evaluate x) + log_prior x)

/-- Claim C6: whenever some component of the candidate is nonpositive
the driver's log-posterior evaluation returns -infinity as a normal
outcome, and does so without invoking the PDE forward solver or the
prior — the result is the same for every choice of solver, likelihood
and prior; when all components are strictly positive it returns
`log_likelihood(evaluate(x)) + log_prior(x)`. -/
theorem log_posterior_lambda_domain_constraint (μ : Type)
    (evaluate : List ℚ → μ) (log_likelihood : μ → ℚ)
    (log_prior : List ℚ → ℚ) (x : List ℚ) :
    ((∃ v ∈ x, v ≤ 0) →
      log_posterior_lambda μ evaluate log_likelihood log_prior x = ⊥ ∧
      ∀ (ν : Type) (e2 : List ℚ → ν) (l2 : ν → ℚ) (p2 : List ℚ → ℚ),
        log_posterior_lambda μ evaluate log_likelihood log_prior x
          = log_posterior_lambda ν e2 l2 p2 x) ∧
    ((∀ v ∈ x, 0 < v) →
      log_posterior_lambda μ evaluate log_likelihood log_prior x
        = ↑(log_likelihood (evaluate x) + log_prior x)) := by
  have hcond : (x.any (fun v => decide (v ≤ 0)) = true) ↔ ∃ v ∈ x, v ≤ 0 := by
    simp [List.any_eq_true]
  constructor
  · intro hex
    have h1 : x.any (fun v => decide (v ≤ 0)) = true := hcond.mpr hex
    refine ⟨?_, fun ν e2 l2 p2 => ?_⟩
    · unfold log_posterior_lambda
      rw [if_pos h1]
    · unfold log_posterior_lambda
      rw [if_pos h1, if_pos h1]
  · intro hpos
    have h1 : ¬ x.any (fun v => decide (v ≤ 0)) = true := by
      rw [hcond]
      rintro ⟨v, hv, hv0⟩
      exact absurd (hpos v hv) (not_lt.mpr hv0)
    unfold log_posterior_lambda
    rw [if_neg h1]

/-- A concrete solver, likelihood and prior used to instantiate C6. -/
def demo_evaluate : List ℚ → ℚ := fun _ => 5

def demo_log_likelihood : ℚ → ℚ := fun r => r

def demo_log_prior : List ℚ → ℚ := fun _ => 1

/-- Concrete instance of C6: the candidate `[-1, 2]` has a nonpositive
component and scores -infinity; the candidate `[3]` is feasible and
scores `log_likelihood(evaluate([3])) + log_prior([3])`. -/
theorem log_posterior_lambda_domain_constraint_witness :
    (∃ v ∈ ([-1, 2] : List ℚ), v ≤ 0) ∧
    log_posterior_lambda ℚ demo_evaluate demo_log_likelihood demo_log_prior
        [-1, 2] = ⊥ ∧
    (∀ v ∈ ([3] : List ℚ), 0 < v) ∧
    log_posterior_lambda ℚ demo_evaluate demo_log_likelihood demo_log_prior
        [3]
      = ↑(demo_log_likelihood (demo_evaluate [3]) + demo_log_prior [3]) := by
  have hex : ∃ v ∈ ([-1, 2] : List ℚ), v ≤ 0 :=
    ⟨-1, by simp, by norm_num⟩
  have hpos : ∀ v ∈ ([3] : List ℚ), 0 < v := by
    intro v hv
    simp only [List.mem_singleton] at hv
    rw [hv]; norm_num
  exact ⟨hex,
    (log_posterior_lambda_domain_constraint ℚ demo_evaluate
      demo_log_likelihood demo_log_prior [-1, 2]).1 hex |>.1,
    hpos,
    (log_posterior_lambda_domain_constraint ℚ demo_evaluate
      demo_log_likelihood demo_log_prior [3]).2 hpos⟩

/-- The crossover lambda `main` passes to `sampler.sample` in
mcmc-laplace.cc: `gamma = 2.38 / sqrt(2 * current_sample.size())`, then
the componentwise valarray computation `result = sample_a;
result -= sample_b; result *= gamma; result += current_sample`, returned
paired with the weight 1.  The machine square root is abstracted as a
function parameter shared with the statement of the spec's formula. -/
def crossover_lambda (sqrt : ℚ → ℚ)
    (current_sample sample_a sample_b : List ℚ) : List ℚ × ℚ :=
  let gamma := 2.38 / sqrt (2 * (current_sample.length : ℚ))
  let result := sample_a
  let result := List.zipWith (fun r v => r - v) result sample_b
  let result := result.map (fun r => r * gamma)
  let result := List.zipWith (fun r v => r + v) result current_sample
  (result, 1)

/-- The crossover formula in the spec's words: candidate =
`current + gamma * (sample_a - sample_b)` componentwise, with
`gamma = 2.38 / sqrt(2 * dimension)`, paired with weight 1. -/
def crossover_spec_formula (sqrt : ℚ → ℚ)
    (current_sample sample_a sample_b : List ℚ) : List ℚ × ℚ :=
  let gamma := 2.38 / sqrt (2 * (current_sample.length : ℚ))
  (List.zipWith (fun c d => c + gamma * d) current_sample
    (List.zipWith (fun p q => p - q) sample_a sample_b), 1)

theorem zipWith_scaled_difference (γ : ℚ) :
    ∀ (a b c : List ℚ),
      List.zipWith (fun r v => r + v)
          ((List.zipWith (fun p q => p - q) a b).map (fun r => r * γ)) c
        = List.zipWith (fun x d => x + γ * d) c
            (List.zipWith (fun p q => p - q) a b) := by
  intro a
  induction a with
  | nil => intro b c; simp
  | cons x a ih =>
    intro b c
    cases b with
    | nil => simp
    | cons y b =>
      cases c with
      | nil => simp
      | cons z c =>
        simp only [List.zipWith_cons_cons, List.map_cons]
        rw [ih]
        congr 1
        ring

/-- Claim C7: for every triple of equal-dimension samples, the crossover
lambda returns the candidate
`current + gamma * (sample_a - sample_b)` with
`gamma = 2.38 / sqrt(2 * dimension)`, paired with weight 1 — i.e. it
coincides with the spec's formula. -/
theorem crossover_lambda_matches_spec (sqrt : ℚ → ℚ)
    (current_sample sample_a sample_b : List ℚ)
    (ha : sample_a.length = current_sample.length)
    (hb : sample_b.length = current_sample.length) :
    crossover_lambda sqrt current_sample sample_a sample_b
      = crossover_spec_formula sqrt current_sample sample_a sample_b := by
  unfold crossover_lambda crossover_spec_formula
  exact Prod.ext (zipWith_scaled_difference _ sample_a sample_b
    current_sample) rfl

/-- Concrete instance of C7 in dimension 1 (with an abstract square
root fixed to the constant 2): crossover of current `[1]` with partners
`[4]` and `[2]` agrees with the spec formula. -/
theorem crossover_lambda_matches_spec_witness :
    ([(4 : ℚ)] : List ℚ).length = ([(1 : ℚ)] : List ℚ).length ∧
    ([(2 : ℚ)] : List ℚ).length = ([(1 : ℚ)] : List ℚ).length ∧
    crossover_lambda (fun _ => 2) [1] [4] [2]
      = crossover_spec_formula (fun _ => 2) [1] [4] [2] :=
  ⟨rfl, rfl,
    crossover_lambda_matches_spec (fun _ => 2) [1] [4] [2] rfl rfl⟩

end MCMCLaplace
